import Mathlib

/-!
Verification of the Othello engine (`edap01_assignment01.py`): board model,
rule engine, evaluators, and the time-boxed alpha-beta minimax search.

Boards are 8×8 grids of cells, embedded as lists of rows, mirroring the
Python list-of-lists representation.  Wall-clock time is embedded as an
abstract boolean stream `timeUp : Nat → Bool` consulted at successive ticks,
one tick per call to `time.time()` in the source.
-/

/-- A board cell: `"."`, `"B"` or `"W"` in the source. -/
inductive Cell where
  | empty
  | B
  | W
deriving DecidableEq, Repr

/-- A side (the `player` strings `"B"` / `"W"` of the source). -/
inductive Player where
  | B
  | W
deriving DecidableEq, Repr

/-- The disk character a side places on the board. -/
def Player.cell : Player → Cell
  | .B => Cell.B
  | .W => Cell.W

/-- `opponent = "B" if player == "W" else "W"` of the source. -/
def opponent (p : Player) : Player :=
  if p = Player.W then Player.B else Player.W

/-- A board: list of rows of cells (`board[r][c]` in the source). -/
abbrev Board := List (List Cell)

/-- A move: a `(row, col)` pair. -/
abbrev Move := Nat × Nat

/-- Read `board[r][c]` (total, defaulting to empty off the list). -/
def cellAt (b : Board) (r c : Nat) : Cell :=
  (b.getD r []).getD c Cell.empty

/-- Write `board[r][c] = v` (a no-op off the list, as all source writes are
in range). -/
def setCell (b : Board) (r c : Nat) (v : Cell) : Board :=
  b.set r ((b.getD r []).set c v)

/-- `initialize_board` of the source: empty 8×8 grid with the four
central disks. -/
def initialize_board : Board :=
  let board : Board := List.replicate 8 (List.replicate 8 Cell.empty)
  setCell (setCell (setCell (setCell board 3 3 Cell.W) 4 4 Cell.W) 3 4 Cell.B) 4 3 Cell.B

/-- The eight compass directions of the source. -/
def directions : List (Int × Int) :=
  [(-1, 0), (1, 0), (0, -1), (0, 1), (-1, -1), (-1, 1), (1, -1), (1, 1)]

/-- `0 <= r < 8 and 0 <= c < 8` of the source. -/
def inB (r c : Int) : Prop :=
  0 ≤ r ∧ r < 8 ∧ 0 ≤ c ∧ c < 8

instance (r c : Int) : Decidable (inB r c) := by
  unfold inB; infer_instance

/-- The direction-scanning `while` loop of `is_valid_move`: walk from
`(r, c)` in direction `(dr, dc)` with the `found_opponent` flag.  The walk
visits at most 8 squares, so fuel 8 makes the recursion total without
changing the source behaviour. -/
def validRay (b : Board) (pl : Player) (dr dc : Int) :
    Nat → Int → Int → Bool → Bool
  | 0, _, _, _ => false
  | fuel + 1, r, c, found =>
    if inB r c then
      let cur := cellAt b r.toNat c.toNat
      if cur = (opponent pl).cell then
        validRay b pl dr dc fuel (r + dr) (c + dc) true
      else if cur = pl.cell then
        found
      else
        false
    else
      false

/-- `is_valid_move` of the source: the target cell must be empty and some
direction must capture. -/
def is_valid_move (b : Board) (row col : Nat) (pl : Player) : Bool :=
  if cellAt b row col ≠ Cell.empty then
    false
  else
    directions.any fun d =>
      validRay b pl d.1 d.2 8 ((row : Int) + d.1) ((col : Int) + d.2) false

/-- `get_valid_moves` of the source: the row-major list comprehension over
`range(8) × range(8)`. -/
def get_valid_moves (b : Board) (pl : Player) : List Move :=
  ((List.range 8).map fun r =>
    ((List.range 8).filter fun c => is_valid_move b r c pl).map fun c =>
      ((r, c) : Move)).flatten

/-- The collecting `while` loop of `apply_move`: gather the run of
consecutive opponent disks from `(r, c)` in direction `(dr, dc)` and
report the final position.  Fuel 8 again bounds the walk. -/
def collectFlips (b : Board) (opp : Cell) (dr dc : Int) :
    Nat → Int → Int → List (Int × Int) × (Int × Int)
  | 0, r, c => ([], (r, c))
  | fuel + 1, r, c =>
    if inB r c then
      if cellAt b r.toNat c.toNat = opp then
        let res := collectFlips b opp dr dc fuel (r + dr) (c + dc)
        ((r, c) :: res.1, res.2)
      else
        ([], (r, c))
    else
      ([], (r, c))

/-- Write through integer coordinates (only used on in-bounds flips). -/
def setCellI (b : Board) (r c : Int) (v : Cell) : Board :=
  if inB r c then setCell b r.toNat c.toNat v else b

/-- `apply_move` of the source: place the disk, then per direction collect
the adjacent opponent run and flip it when it is terminated by an own
disk. -/
def apply_move (b : Board) (row col : Nat) (pl : Player) : Board :=
  let opp := opponent pl
  let b1 := setCell b row col pl.cell
  directions.foldl
    (fun bd d =>
      let res := collectFlips bd opp.cell d.1 d.2 8 ((row : Int) + d.1) ((col : Int) + d.2)
      let r := res.2.1
      let c := res.2.2
      if inB r c ∧ cellAt bd r.toNat c.toNat = pl.cell then
        res.1.foldl (fun b2 p => setCellI b2 p.1 p.2 pl.cell) bd
      else
        bd)
    b1

/-- `row.count(x)` of the source. -/
def rowCount (x : Cell) : List Cell → Nat
  | [] => 0
  | y :: t => (if y = x then 1 else 0) + rowCount x t

/-- `sum(row.count(x) for row in board)` of the source. -/
def boardCount (x : Cell) : Board → Nat
  | [] => 0
  | row :: t => rowCount x row + boardCount x t

/-- Total number of disks on the board (side B plus side W). -/
def totalDisks (b : Board) : Nat :=
  boardCount Cell.B b + boardCount Cell.W b

/-- The four corners of the source's `evaluate_advanced`. -/
def corners : List (Nat × Nat) :=
  [(0, 0), (0, 7), (7, 0), (7, 7)]

/-- `sum(1 for r, c in corners if board[r][c] == x)` of the source. -/
def cornerCount (b : Board) (x : Cell) : Nat :=
  (corners.filter fun p => cellAt b p.1 p.2 = x).length

/-- `evaluate_advanced` of the source: piece difference + 5 · corner
difference + 2 · mobility difference. -/
def evaluate_advanced (b : Board) (pl : Player) : Int :=
  let opp := opponent pl
  let piece_score : Int := (boardCount pl.cell b : Int) - (boardCount opp.cell b : Int)
  let corner_score : Int := ((cornerCount b pl.cell : Int) - (cornerCount b opp.cell : Int)) * 5
  let mobility_score : Int :=
    (((get_valid_moves b pl).length : Int) - ((get_valid_moves b opp).length : Int)) * 2
  piece_score + corner_score + mobility_score

/-- `evaluate_piece_count` of the source: disk-count difference. -/
def evaluate_piece_count (b : Board) (pl : Player) : Int :=
  let opp := opponent pl
  (boardCount pl.cell b : Int) - (boardCount opp.cell b : Int)

/-- Well-formed boards: the 8×8 grids the Python program actually builds. -/
def isBoard (b : Board) : Prop :=
  b.length = 8 ∧ ∀ row ∈ b, row.length = 8

instance (b : Board) : Decidable (isBoard b) := by
  unfold isBoard; infer_instance

/-- Scores in the search: integers extended with `-math.inf` and
`math.inf`, the values used by the source for the initial bounds and
accumulators. -/
inductive XInt where
  | negInf
  | fin (z : Int)
  | posInf
deriving DecidableEq, Repr

/-- The ordering of `XInt`, matching float comparison with infinities. -/
def XInt.ble : XInt → XInt → Bool
  | .negInf, _ => true
  | _, .negInf => false
  | .fin a, .fin b => decide (a ≤ b)
  | _, .posInf => true
  | .posInf, _ => false

instance : LE XInt := ⟨fun a b => XInt.ble a b = true⟩

instance : LT XInt := ⟨fun a b => XInt.ble b a = false⟩

instance (a b : XInt) : Decidable (a ≤ b) :=
  inferInstanceAs (Decidable (XInt.ble a b = true))

instance (a b : XInt) : Decidable (a < b) :=
  inferInstanceAs (Decidable (XInt.ble b a = false))

instance : LinearOrder XInt where
  le_refl a := show XInt.ble a a = true by
    cases a <;> simp [XInt.ble]
  le_trans a b c := show XInt.ble a b = true → XInt.ble b c = true → XInt.ble a c = true by
    cases a <;> cases b <;> cases c <;> simp [XInt.ble] <;> omega
  le_antisymm a b := by
    intro h1 h2
    have h1' : XInt.ble a b = true := h1
    have h2' : XInt.ble b a = true := h2
    cases a <;> cases b <;> simp_all [XInt.ble] <;> omega
  le_total a b := show XInt.ble a b = true ∨ XInt.ble b a = true by
    cases a <;> cases b <;> simp [XInt.ble] <;> omega
  lt_iff_le_not_le a b :=
    show XInt.ble b a = false ↔ XInt.ble a b = true ∧ ¬XInt.ble b a = true by
      cases a <;> cases b <;> simp [XInt.ble] <;> omega
  decidableLE a b := inferInstance
  decidableLT a b := inferInstance
  decidableEq := inferInstance

/-- The abstract wall clock: `timeUp k` is the value of
`time.time() - start_time > time_limit` at the `k`-th call of
`time.time()` inside the search. -/
abbrev Clock := Nat → Bool

/-- The unlimited time budget: the deadline check never fires. -/
def noLimit : Clock := fun _ => false

/-- The maximizing `for move in valid_moves` loop of `minimax`.
`child nb a k` is the recursive call on the already-applied move board
`nb` with current window `(a, beta)` at tick `k`; it returns
`((score, move), next tick)`.  Accumulators `maxEval`, `best` mirror
`max_eval` and `best_move`; the loop breaks on `beta <= alpha` or an
elapsed deadline and otherwise recurses down the move list. -/
def maxLoop (child : Board → XInt → Nat → (XInt × Option Move) × Nat)
    (b : Board) (pl : Player) (beta : XInt) (timeUp : Clock) :
    List Move → XInt → Nat → XInt → Option Move → (XInt × Option Move) × Nat
  | [], _, k, maxEval, best => ((maxEval, best), k)
  | mv :: rest, alpha, k, maxEval, best =>
    let nb := apply_move b mv.1 mv.2 pl
    let res := child nb alpha k
    let s := res.1.1
    let k1 := res.2
    let maxEval' := if maxEval < s then s else maxEval
    let best' := if maxEval < s then some mv else best
    let alpha' := max alpha s
    if beta ≤ alpha' then ((maxEval', best'), k1)
    else if timeUp k1 then ((maxEval', best'), k1 + 1)
    else maxLoop child b pl beta timeUp rest alpha' (k1 + 1) maxEval' best'

/-- The minimizing `for move in valid_moves` loop of `minimax`
(the opponent `mover` applies the moves). -/
def minLoop (child : Board → XInt → Nat → (XInt × Option Move) × Nat)
    (b : Board) (mover : Player) (alpha : XInt) (timeUp : Clock) :
    List Move → XInt → Nat → XInt → Option Move → (XInt × Option Move) × Nat
  | [], _, k, minEval, best => ((minEval, best), k)
  | mv :: rest, beta, k, minEval, best =>
    let nb := apply_move b mv.1 mv.2 mover
    let res := child nb beta k
    let s := res.1.1
    let k1 := res.2
    let minEval' := if s < minEval then s else minEval
    let best' := if s < minEval then some mv else best
    let beta' := min beta s
    if beta' ≤ alpha then ((minEval', best'), k1)
    else if timeUp k1 then ((minEval', best'), k1 + 1)
    else minLoop child b mover alpha timeUp rest beta' (k1 + 1) minEval' best'

/-- `minimax` of the source: alpha-beta minimax with deadline cutoff.
Returns `((score, best move), next tick)`.  The base case fires on zero
depth, no legal moves for the side to move, or an elapsed deadline, and
evaluates the board from `player`'s (the root side's) perspective. -/
def minimax (evalF : Board → Player → Int) (timeUp : Clock) :
    Nat → Board → XInt → XInt → Bool → Player → Nat → (XInt × Option Move) × Nat
  | 0, b, _, _, _, player, k => ((XInt.fin (evalF b player), none), k)
  | d + 1, b, alpha, beta, maximizing, player, k =>
    let mover := if maximizing then player else opponent player
    let moves := get_valid_moves b mover
    if moves = [] then ((XInt.fin (evalF b player), none), k)
    else if timeUp k then ((XInt.fin (evalF b player), none), k + 1)
    else if maximizing then
      maxLoop (fun nb a k' => minimax evalF timeUp d nb a beta false player k')
        b player beta timeUp moves alpha (k + 1) XInt.negInf none
    else
      minLoop (fun nb bt k' => minimax evalF timeUp d nb alpha bt true player k')
        b (opponent player) alpha timeUp moves beta (k + 1) XInt.posInf none

/-- `computer_move` of the source: the root call with depth 10, full
window, and `maximizing_player=True`; only the move is returned. -/
def computer_move (evalF : Board → Player → Int) (timeUp : Clock)
    (b : Board) (player : Player) : Option Move :=
  ((minimax evalF timeUp 10 b XInt.negInf XInt.posInf true player 0).1).2

/-- Modelled from the spec: the maximizing loop of an unpruned full
minimax over the same tree, with the same row-major child order and the
same first-strictly-greater tie-break, but no alpha-beta bounds and no
deadline.  `child` returns the child's exact score. -/
def fmaxLoop (child : Board → XInt) (b : Board) (pl : Player) :
    List Move → XInt → Option Move → XInt × Option Move
  | [], maxEval, best => (maxEval, best)
  | mv :: rest, maxEval, best =>
    let s := child (apply_move b mv.1 mv.2 pl)
    if maxEval < s then fmaxLoop child b pl rest s (some mv)
    else fmaxLoop child b pl rest maxEval best

/-- Modelled from the spec: the minimizing loop of the unpruned full
minimax. -/
def fminLoop (child : Board → XInt) (b : Board) (mover : Player) :
    List Move → XInt → Option Move → XInt × Option Move
  | [], minEval, best => (minEval, best)
  | mv :: rest, minEval, best =>
    let s := child (apply_move b mv.1 mv.2 mover)
    if s < minEval then fminLoop child b mover rest s (some mv)
    else fminLoop child b mover rest minEval best

/-- Modelled from the spec: an unpruned full minimax over the same game
tree as `minimax` (same leaf conditions apart from the deadline, same
row-major child order, same tie-break), used as the reference for the
alpha-beta refinement claim. -/
def fullMinimax (evalF : Board → Player → Int) :
    Nat → Board → Bool → Player → XInt × Option Move
  | 0, b, _, player => (XInt.fin (evalF b player), none)
  | d + 1, b, maximizing, player =>
    let mover := if maximizing then player else opponent player
    let moves := get_valid_moves b mover
    if moves = [] then (XInt.fin (evalF b player), none)
    else if maximizing then
      fmaxLoop (fun nb => (fullMinimax evalF d nb false player).1)
        b player moves XInt.negInf none
    else
      fminLoop (fun nb => (fullMinimax evalF d nb true player).1)
        b (opponent player) moves XInt.posInf none

/-- The exact value of a maximizing node's children: the maximum of the
child-value function `V` over the applied moves (`negInf` for none), the
quantity `fmaxLoop` folds towards. -/
def maxVal (V : Board → XInt) (b : Board) (pl : Player) : List Move → XInt
  | [] => XInt.negInf
  | mv :: rest => max (V (apply_move b mv.1 mv.2 pl)) (maxVal V b pl rest)

/-- The exact value of a minimizing node's children. -/
def minVal (V : Board → XInt) (b : Board) (mover : Player) : List Move → XInt
  | [] => XInt.posInf
  | mv :: rest => min (V (apply_move b mv.1 mv.2 mover)) (minVal V b mover rest)

/-!
A heap model of the search, for the frame property: Python boards are
mutable objects, so `minimax` is re-embedded with an explicit heap of
board objects.  `copy.deepcopy(board)` allocates a fresh reference at the
end of the heap; `apply_move(new_board, ...)` writes through that fresh
reference; the caller's board is only ever read.
-/

/-- The heap of live board objects; a reference is an index. -/
abbrev Heap := List Board

/-- Dereference a board object. -/
def hget (h : Heap) (r : Nat) : Board :=
  h.getD r []

/-- Overwrite a board object in place. -/
def hset (h : Heap) (r : Nat) (b : Board) : Heap :=
  h.set r b

/-- The maximizing loop of `minimax` on the heap: each iteration
deep-copies the parent board into a fresh reference, mutates that copy
with `apply_move`, and recurses through `child` (which returns the heap
it produced). -/
def maxLoopH (child : Heap → Nat → XInt → Nat → ((XInt × Option Move) × Nat) × Heap)
    (pl : Player) (beta : XInt) (timeUp : Clock) (r : Nat) :
    List Move → Heap → XInt → Nat → XInt → Option Move → ((XInt × Option Move) × Nat) × Heap
  | [], h, _, k, maxEval, best => (((maxEval, best), k), h)
  | mv :: rest, h, alpha, k, maxEval, best =>
    let h1 := h ++ [hget h r]
    let r1 := h.length
    let h2 := hset h1 r1 (apply_move (hget h1 r1) mv.1 mv.2 pl)
    let res := child h2 r1 alpha k
    let s := res.1.1.1
    let k1 := res.1.2
    let h3 := res.2
    let maxEval' := if maxEval < s then s else maxEval
    let best' := if maxEval < s then some mv else best
    let alpha' := max alpha s
    if beta ≤ alpha' then (((maxEval', best'), k1), h3)
    else if timeUp k1 then (((maxEval', best'), k1 + 1), h3)
    else maxLoopH child pl beta timeUp r rest h3 alpha' (k1 + 1) maxEval' best'

/-- The minimizing loop of `minimax` on the heap. -/
def minLoopH (child : Heap → Nat → XInt → Nat → ((XInt × Option Move) × Nat) × Heap)
    (mover : Player) (alpha : XInt) (timeUp : Clock) (r : Nat) :
    List Move → Heap → XInt → Nat → XInt → Option Move → ((XInt × Option Move) × Nat) × Heap
  | [], h, _, k, minEval, best => (((minEval, best), k), h)
  | mv :: rest, h, beta, k, minEval, best =>
    let h1 := h ++ [hget h r]
    let r1 := h.length
    let h2 := hset h1 r1 (apply_move (hget h1 r1) mv.1 mv.2 mover)
    let res := child h2 r1 beta k
    let s := res.1.1.1
    let k1 := res.1.2
    let h3 := res.2
    let minEval' := if s < minEval then s else minEval
    let best' := if s < minEval then some mv else best
    let beta' := min beta s
    if beta' ≤ alpha then (((minEval', best'), k1), h3)
    else if timeUp k1 then (((minEval', best'), k1 + 1), h3)
    else minLoopH child mover alpha timeUp r rest h3 beta' (k1 + 1) minEval' best'

/-- `minimax` on the heap: identical control flow to `minimax`, but the
board argument is a reference into the heap and the final heap is
returned. -/
def minimaxH (evalF : Board → Player → Int) (timeUp : Clock) :
    Nat → Heap → Nat → XInt → XInt → Bool → Player → Nat → ((XInt × Option Move) × Nat) × Heap
  | 0, h, r, _, _, _, player, k => (((XInt.fin (evalF (hget h r) player), none), k), h)
  | d + 1, h, r, alpha, beta, maximizing, player, k =>
    let b := hget h r
    let mover := if maximizing then player else opponent player
    let moves := get_valid_moves b mover
    if moves = [] then (((XInt.fin (evalF b player), none), k), h)
    else if timeUp k then (((XInt.fin (evalF b player), none), k + 1), h)
    else if maximizing then
      maxLoopH (fun h' r' a k' => minimaxH evalF timeUp d h' r' a beta false player k')
        player beta timeUp r moves h alpha (k + 1) XInt.negInf none
    else
      minLoopH (fun h' r' bt k' => minimaxH evalF timeUp d h' r' alpha bt true player k')
        (opponent player) alpha timeUp r moves h beta (k + 1) XInt.posInf none

/-! ### List-level helper lemmas -/

lemma getD_set_self {α : Type} (l : List α) (i : Nat) (v d : α) (h : i < l.length) :
    (l.set i v).getD i d = v := by
  induction l generalizing i with
  | nil => simp at h
  | cons a t ih =>
    cases i with
    | zero => simp
    | succ n =>
      simp only [List.set, List.getD_cons_succ]
      exact ih n (by simpa using h)

lemma getD_set_ne {α : Type} (l : List α) (i j : Nat) (v d : α) (h : i ≠ j) :
    (l.set i v).getD j d = l.getD j d := by
  induction l generalizing i j with
  | nil => simp
  | cons a t ih =>
    cases i with
    | zero =>
      cases j with
      | zero => exact absurd rfl h
      | succ m => simp
    | succ n =>
      cases j with
      | zero => simp
      | succ m =>
        simp only [List.set, List.getD_cons_succ]
        exact ih n m (by omega)

lemma set_of_length_le {α : Type} (l : List α) (i : Nat) (v : α) (h : l.length ≤ i) :
    l.set i v = l := by
  induction l generalizing i with
  | nil => simp
  | cons a t ih =>
    cases i with
    | zero => simp at h
    | succ n =>
      simp only [List.set, List.cons.injEq, true_and]
      exact ih n (by simpa using h)

lemma rowCount_set (l : List Cell) (i : Nat) (v x : Cell) (h : i < l.length) :
    rowCount x (l.set i v) + (if l.getD i Cell.empty = x then 1 else 0)
      = rowCount x l + (if v = x then 1 else 0) := by
  induction l generalizing i with
  | nil => simp at h
  | cons a t ih =>
    cases i with
    | zero => simp [rowCount]; split_ifs <;> omega
    | succ n =>
      simp only [List.set, rowCount, List.getD_cons_succ]
      have := ih n (by simpa using h)
      omega

lemma boardCount_set (b : Board) (r : Nat) (nr : List Cell) (x : Cell) (h : r < b.length) :
    boardCount x (b.set r nr) + rowCount x (b.getD r [])
      = boardCount x b + rowCount x nr := by
  induction b generalizing r with
  | nil => simp at h
  | cons row t ih =>
    cases r with
    | zero => simp [boardCount]; omega
    | succ n =>
      simp only [List.set, boardCount, List.getD_cons_succ]
      have := ih n (by simpa using h)
      omega

/-! ### Board-level helper lemmas -/

lemma Player.cell_ne_empty (pl : Player) : pl.cell ≠ Cell.empty := by
  cases pl <;> simp [Player.cell]

lemma isBoard_getD {b : Board} (hb : isBoard b) {i : Nat} (hi : i < 8) :
    (b.getD i []).length = 8 := by
  have hi' : i < b.length := by rw [hb.1]; exact hi
  rw [List.getD_eq_getElem _ _ hi']
  exact hb.2 _ (List.getElem_mem hi')

lemma isBoard_setCell {b : Board} (hb : isBoard b) (r c : Nat) (v : Cell) :
    isBoard (setCell b r c v) := by
  by_cases hr : r < b.length
  · constructor
    · simp [setCell, hb.1]
    · intro row hrow
      rcases List.mem_or_eq_of_mem_set hrow with h | h
      · exact hb.2 _ h
      · subst h; rw [List.length_set]
        exact isBoard_getD hb (by rw [← hb.1]; exact hr)
  · unfold setCell
    rw [set_of_length_le _ _ _ (by omega)]
    exact hb

lemma cellAt_setCell_or (b : Board) (r c i j : Nat) (v : Cell) :
    cellAt (setCell b r c v) i j = cellAt b i j ∨ cellAt (setCell b r c v) i j = v := by
  unfold cellAt setCell
  by_cases hi : r = i
  · subst hi
    by_cases hr : r < b.length
    · rw [getD_set_self _ _ _ _ hr]
      by_cases hj : c = j
      · subst hj
        by_cases hc : c < (b.getD r []).length
        · right; exact getD_set_self _ _ _ _ hc
        · left; rw [set_of_length_le _ _ _ (by omega)]
      · left; rw [getD_set_ne _ _ _ _ _ hj]
    · left; rw [set_of_length_le _ _ _ (by omega)]
  · left; rw [getD_set_ne _ _ _ _ _ hi]

lemma cellAt_setCell_self (b : Board) (r c : Nat) (v : Cell)
    (hr : r < b.length) (hc : c < (b.getD r []).length) :
    cellAt (setCell b r c v) r c = v := by
  unfold cellAt setCell
  rw [getD_set_self _ _ _ _ hr, getD_set_self _ _ _ _ hc]

lemma totalDisks_setCell (b : Board) (r c : Nat) (v : Cell)
    (hr : r < b.length) (hc : c < (b.getD r []).length) (hv : v ≠ Cell.empty) :
    totalDisks (setCell b r c v)
      = totalDisks b + (if cellAt b r c = Cell.empty then 1 else 0) := by
  have eB := boardCount_set b r ((b.getD r []).set c v) Cell.B hr
  have eW := boardCount_set b r ((b.getD r []).set c v) Cell.W hr
  have fB := rowCount_set (b.getD r []) c v Cell.B hc
  have fW := rowCount_set (b.getD r []) c v Cell.W hc
  have hcell : cellAt b r c = (b.getD r []).getD c Cell.empty := rfl
  unfold totalDisks setCell
  rw [hcell]
  cases v <;> cases hy : (b.getD r []).getD c Cell.empty <;>
    rw [hy] at fB fW <;>
    simp only [reduceCtorEq, if_true, if_false, reduceIte] at fB fW ⊢ <;>
    first
      | exact absurd rfl hv
      | omega

lemma collectFlips_mem (b : Board) (o : Cell) (dr dc : Int) :
    ∀ (fuel : Nat) (r c : Int) (p : Int × Int),
      p ∈ (collectFlips b o dr dc fuel r c).1 →
      inB p.1 p.2 ∧ cellAt b p.1.toNat p.2.toNat = o := by
  intro fuel
  induction fuel with
  | zero => intro r c p hp; simp [collectFlips] at hp
  | succ n ih =>
    intro r c p hp
    unfold collectFlips at hp
    by_cases h1 : inB r c
    · rw [if_pos h1] at hp
      by_cases h2 : cellAt b r.toNat c.toNat = o
      · rw [if_pos h2] at hp
        simp only [List.mem_cons] at hp
        rcases hp with hp | hp
        · subst hp; exact ⟨h1, h2⟩
        · exact ih _ _ p hp
      · rw [if_neg h2] at hp; simp at hp
    · rw [if_neg h1] at hp; simp at hp

lemma flips_foldl_total (pl : Player) :
    ∀ (fl : List (Int × Int)) (bd : Board), isBoard bd →
      (∀ p ∈ fl, inB p.1 p.2 ∧ cellAt bd p.1.toNat p.2.toNat ≠ Cell.empty) →
      totalDisks (fl.foldl (fun b2 p => setCellI b2 p.1 p.2 pl.cell) bd) = totalDisks bd
      ∧ isBoard (fl.foldl (fun b2 p => setCellI b2 p.1 p.2 pl.cell) bd) := by
  intro fl
  induction fl with
  | nil => intro bd hb _; exact ⟨rfl, hb⟩
  | cons p t ih =>
    intro bd hb hall
    obtain ⟨hpin, hpcell⟩ := hall p (List.mem_cons_self p t)
    have hrn : p.1.toNat < bd.length := by
      rw [hb.1]; rcases hpin with ⟨h1, h2, _, _⟩; omega
    have hcn : p.2.toNat < (bd.getD p.1.toNat []).length := by
      rw [isBoard_getD hb (by rw [← hb.1]; exact hrn)]
      rcases hpin with ⟨_, _, h3, h4⟩; omega
    have hstep : setCellI bd p.1 p.2 pl.cell = setCell bd p.1.toNat p.2.toNat pl.cell := by
      unfold setCellI; rw [if_pos hpin]
    have htot : totalDisks (setCellI bd p.1 p.2 pl.cell) = totalDisks bd := by
      rw [hstep, totalDisks_setCell bd _ _ _ hrn hcn (Player.cell_ne_empty pl),
        if_neg hpcell]
      omega
    have hbd' : isBoard (setCellI bd p.1 p.2 pl.cell) := by
      rw [hstep]; exact isBoard_setCell hb _ _ _
    have hall' : ∀ q ∈ t, inB q.1 q.2 ∧
        cellAt (setCellI bd p.1 p.2 pl.cell) q.1.toNat q.2.toNat ≠ Cell.empty := by
      intro q hq
      obtain ⟨hqin, hqcell⟩ := hall q (List.mem_cons_of_mem p hq)
      refine ⟨hqin, ?_⟩
      rw [hstep]
      rcases cellAt_setCell_or bd p.1.toNat p.2.toNat q.1.toNat q.2.toNat pl.cell
        with h | h
      · rw [h]; exact hqcell
      · rw [h]; exact Player.cell_ne_empty pl
    have := ih (setCellI bd p.1 p.2 pl.cell) hbd' hall'
    simp only [List.foldl_cons]
    exact ⟨by rw [this.1, htot], this.2⟩

lemma apply_move_dirs_total (pl : Player) (row col : Nat) :
    ∀ (ds : List (Int × Int)) (bd : Board), isBoard bd →
      totalDisks (ds.foldl
        (fun bd d =>
          let res := collectFlips bd (opponent pl).cell d.1 d.2 8
            ((row : Int) + d.1) ((col : Int) + d.2)
          let r := res.2.1
          let c := res.2.2
          if inB r c ∧ cellAt bd r.toNat c.toNat = pl.cell then
            res.1.foldl (fun b2 p => setCellI b2 p.1 p.2 pl.cell) bd
          else bd)
        bd) = totalDisks bd
      ∧ isBoard (ds.foldl
        (fun bd d =>
          let res := collectFlips bd (opponent pl).cell d.1 d.2 8
            ((row : Int) + d.1) ((col : Int) + d.2)
          let r := res.2.1
          let c := res.2.2
          if inB r c ∧ cellAt bd r.toNat c.toNat = pl.cell then
            res.1.foldl (fun b2 p => setCellI b2 p.1 p.2 pl.cell) bd
          else bd)
        bd) := by
  intro ds
  induction ds with
  | nil => intro bd hb; exact ⟨rfl, hb⟩
  | cons d t ih =>
    intro bd hb
    simp only [List.foldl_cons]
    set res := collectFlips bd (opponent pl).cell d.1 d.2 8
      ((row : Int) + d.1) ((col : Int) + d.2) with hres
    by_cases hg : inB res.2.1 res.2.2 ∧ cellAt bd res.2.1.toNat res.2.2.toNat = pl.cell
    · have hall : ∀ p ∈ res.1, inB p.1 p.2 ∧
          cellAt bd p.1.toNat p.2.toNat ≠ Cell.empty := by
        intro p hp
        obtain ⟨h1, h2⟩ := collectFlips_mem bd (opponent pl).cell d.1 d.2 8
          ((row : Int) + d.1) ((col : Int) + d.2) p (by rw [hres] at hp; exact hp)
        refine ⟨h1, ?_⟩
        rw [h2]
        exact Player.cell_ne_empty (opponent pl)
      have hfl := flips_foldl_total pl res.1 bd hb hall
      rw [if_pos hg]
      have := ih (res.1.foldl (fun b2 p => setCellI b2 p.1 p.2 pl.cell) bd) hfl.2
      exact ⟨by rw [this.1, hfl.1], this.2⟩
    · rw [if_neg hg]
      exact ih bd hb

lemma is_valid_move_empty {b : Board} {row col : Nat} {pl : Player}
    (h : is_valid_move b row col pl = true) : cellAt b row col = Cell.empty := by
  by_contra hne
  unfold is_valid_move at h
  rw [if_pos hne] at h
  exact Bool.false_ne_true h

lemma is_valid_move_occupied {b : Board} {row col : Nat} {pl : Player}
    (h : cellAt b row col ≠ Cell.empty) : is_valid_move b row col pl = false := by
  unfold is_valid_move
  rw [if_pos h]

lemma flips_foldl_or (pl : Player) (b0 : Board) :
    ∀ (fl : List (Int × Int)) (bd : Board),
      (∀ i j, cellAt bd i j = cellAt b0 i j ∨ cellAt bd i j = pl.cell) →
      ∀ i j, cellAt (fl.foldl (fun b2 p => setCellI b2 p.1 p.2 pl.cell) bd) i j
          = cellAt b0 i j
        ∨ cellAt (fl.foldl (fun b2 p => setCellI b2 p.1 p.2 pl.cell) bd) i j
          = pl.cell := by
  intro fl
  induction fl with
  | nil => intro bd h; exact h
  | cons p t ih =>
    intro bd h
    simp only [List.foldl_cons]
    apply ih
    intro i j
    unfold setCellI
    by_cases hin : inB p.1 p.2
    · rw [if_pos hin]
      rcases cellAt_setCell_or bd p.1.toNat p.2.toNat i j pl.cell with h' | h'
      · rw [h']; exact h i j
      · right; exact h'
    · rw [if_neg hin]; exact h i j

lemma dirs_foldl_or (pl : Player) (row col : Nat) :
    ∀ (ds : List (Int × Int)) (bd b0 : Board),
      (∀ i j, cellAt bd i j = cellAt b0 i j ∨ cellAt bd i j = pl.cell) →
      ∀ i j, cellAt (ds.foldl
          (fun bd d =>
            let res := collectFlips bd (opponent pl).cell d.1 d.2 8
              ((row : Int) + d.1) ((col : Int) + d.2)
            let r := res.2.1
            let c := res.2.2
            if inB r c ∧ cellAt bd r.toNat c.toNat = pl.cell then
              res.1.foldl (fun b2 p => setCellI b2 p.1 p.2 pl.cell) bd
            else bd) bd) i j = cellAt b0 i j
        ∨ cellAt (ds.foldl
          (fun bd d =>
            let res := collectFlips bd (opponent pl).cell d.1 d.2 8
              ((row : Int) + d.1) ((col : Int) + d.2)
            let r := res.2.1
            let c := res.2.2
            if inB r c ∧ cellAt bd r.toNat c.toNat = pl.cell then
              res.1.foldl (fun b2 p => setCellI b2 p.1 p.2 pl.cell) bd
            else bd) bd) i j = pl.cell := by
  intro ds
  induction ds with
  | nil => intro bd b0 h; exact h
  | cons d t ih =>
    intro bd b0 h
    simp only [List.foldl_cons]
    apply ih
    by_cases hg : inB (collectFlips bd (opponent pl).cell d.1 d.2 8
          ((row : Int) + d.1) ((col : Int) + d.2)).2.1
        (collectFlips bd (opponent pl).cell d.1 d.2 8
          ((row : Int) + d.1) ((col : Int) + d.2)).2.2
        ∧ cellAt bd (collectFlips bd (opponent pl).cell d.1 d.2 8
          ((row : Int) + d.1) ((col : Int) + d.2)).2.1.toNat
          (collectFlips bd (opponent pl).cell d.1 d.2 8
            ((row : Int) + d.1) ((col : Int) + d.2)).2.2.toNat = pl.cell
    · simp only [if_pos hg]
      exact flips_foldl_or pl b0 _ bd h
    · simp only [if_neg hg]
      exact h

/-! ### C2: a legal move adds exactly one disk -/

/-- C2: on a well-formed board, applying a legal move (the cell placed on
is empty, per `is_valid_move`) increases the total disk count (side B
plus side W) by exactly one: the placed cell gains a disk and every flip
rewrites an opponent disk in place. -/
theorem apply_move_total_disks (b : Board) (row col : Nat) (pl : Player)
    (hb : isBoard b) (hrow : row < 8) (hcol : col < 8)
    (hv : is_valid_move b row col pl = true) :
    totalDisks (apply_move b row col pl) = totalDisks b + 1 := by
  have hempty := is_valid_move_empty hv
  have hrn : row < b.length := by rw [hb.1]; exact hrow
  have hcn : col < (b.getD row []).length := by
    rw [isBoard_getD hb hrow]; exact hcol
  have h1 : totalDisks (setCell b row col pl.cell) = totalDisks b + 1 := by
    rw [totalDisks_setCell b row col pl.cell hrn hcn (Player.cell_ne_empty pl),
      if_pos hempty]
  have hb1 : isBoard (setCell b row col pl.cell) := isBoard_setCell hb _ _ _
  have hfold := (apply_move_dirs_total pl row col directions
    (setCell b row col pl.cell) hb1).1
  rw [h1] at hfold
  exact hfold

/-- C2 witness: Black's opening move (2,3) on the start board takes the
disk total from 4 to 5. -/
theorem apply_move_total_disks_witness :
    totalDisks (apply_move initialize_board 2 3 Player.B)
      = totalDisks initialize_board + 1 :=
  apply_move_total_disks initialize_board 2 3 Player.B (by decide) (by decide)
    (by decide) (by decide)

/-! ### C10: move application never empties a cell -/

/-- C10: for any board, any coordinates in range and any side, with no
legality assumption, every cell of the board after `apply_move` either
kept its old value or holds the moving side's disk; in particular no cell
is ever set to empty and the occupied set never shrinks. -/
theorem apply_move_never_empties (b : Board) (row col : Nat) (pl : Player)
    (hrow : row < 8) (hcol : col < 8) :
    ∀ i j, cellAt (apply_move b row col pl) i j = cellAt b i j
      ∨ cellAt (apply_move b row col pl) i j = pl.cell := by
  have hbase : ∀ i j, cellAt (setCell b row col pl.cell) i j = cellAt b i j
      ∨ cellAt (setCell b row col pl.cell) i j = pl.cell := by
    intro i j
    exact cellAt_setCell_or b row col i j pl.cell
  exact dirs_foldl_or pl row col directions (setCell b row col pl.cell) b hbase

/-- C10 witness: instantiating at the (illegal) write of a Black disk at
(0,0) on the start board. -/
theorem apply_move_never_empties_witness :
    cellAt (apply_move initialize_board 0 0 Player.B) 3 3
        = cellAt initialize_board 3 3
      ∨ cellAt (apply_move initialize_board 0 0 Player.B) 3 3 = Player.B.cell :=
  apply_move_never_empties initialize_board 0 0 Player.B (by decide) (by decide) 3 3

/-! ### C5: Black's legal moves on the start board -/

/-- C5: on the canonical starting board the legal moves of Black are
exactly (2,3), (3,2), (4,5), (5,4), in row-major order. -/
theorem initial_black_moves :
    get_valid_moves initialize_board Player.B = [(2, 3), (3, 2), (4, 5), (5, 4)] := by
  decide

/-! ### C8: the opponent mapping is an involution -/

/-- C8: for both sides, `opponent (opponent s) = s`. -/
theorem opponent_involution : ∀ s : Player, opponent (opponent s) = s := by
  intro s
  cases s <;> rfl

/-! ### C9: a board without empty cells has no legal moves -/

/-- C9: if no cell of the board is empty, both sides have an empty legal
move list (so the driver's next double-check of moves ends the game). -/
theorem full_board_no_moves (b : Board)
    (h : ∀ r < 8, ∀ c < 8, cellAt b r c ≠ Cell.empty) :
    ∀ pl : Player, get_valid_moves b pl = [] := by
  intro pl
  unfold get_valid_moves
  rw [List.flatten_eq_nil_iff]
  intro l hl
  rw [List.mem_map] at hl
  obtain ⟨r, hr, rfl⟩ := hl
  rw [List.mem_range] at hr
  have hf : ((List.range 8).filter fun c => is_valid_move b r c pl) = [] := by
    rw [List.filter_eq_nil_iff]
    intro c hc
    rw [List.mem_range] at hc
    rw [is_valid_move_occupied (h r hr c hc)]
    exact Bool.false_ne_true
  rw [hf]
  rfl

/-- C9 witness: the all-Black board has no legal moves for either side. -/
theorem full_board_no_moves_witness :
    get_valid_moves (List.replicate 8 (List.replicate 8 Cell.B)) Player.W = [] :=
  full_board_no_moves (List.replicate 8 (List.replicate 8 Cell.B))
    (by decide) Player.W

/-! ### C6: corner weighting of the advanced evaluator -/

/-- C6: on a board where the side holds exactly one corner, the opponent
holds none, the piece counts are equal and the mobility counts are equal,
the advanced evaluator scores exactly 5 more than the piece-count
evaluator. -/
theorem advanced_corner_bonus (b : Board) (pl : Player)
    (h1 : cornerCount b pl.cell = 1)
    (h2 : cornerCount b (opponent pl).cell = 0)
    (h3 : boardCount pl.cell b = boardCount (opponent pl).cell b)
    (h4 : (get_valid_moves b pl).length = (get_valid_moves b (opponent pl)).length) :
    evaluate_advanced b pl = evaluate_piece_count b pl + 5 := by
  simp only [evaluate_advanced, evaluate_piece_count]
  rw [h1, h2, h3, h4]
  push_cast
  ring

/-- C6 witness: Black holding corner (0,0) against a lone White disk at
(3,3); neither side has a legal move and both have one disk. -/
theorem advanced_corner_bonus_witness :
    evaluate_advanced
        (setCell (setCell (List.replicate 8 (List.replicate 8 Cell.empty)) 0 0 Cell.B)
          3 3 Cell.W) Player.B
      = evaluate_piece_count
          (setCell (setCell (List.replicate 8 (List.replicate 8 Cell.empty)) 0 0 Cell.B)
            3 3 Cell.W) Player.B + 5 :=
  advanced_corner_bonus _ Player.B (by decide) (by decide) (by decide) (by decide)

/-! ### C3: leaf conditions of the recursive search -/

/-- Internal form of the leaf property: on zero depth, no legal moves for
the side to move, or an elapsed deadline at entry, the search returns the
root-side evaluation and no move. -/
lemma minimax_base (evalF : Board → Player → Int) (timeUp : Clock)
    (depth : Nat) (b : Board) (alpha beta : XInt) (maximizing : Bool)
    (player : Player) (k : Nat)
    (h : depth = 0
      ∨ get_valid_moves b (if maximizing then player else opponent player) = []
      ∨ timeUp k = true) :
    (minimax evalF timeUp depth b alpha beta maximizing player k).1
      = (XInt.fin (evalF b player), none) := by
  cases depth with
  | zero => rfl
  | succ d =>
    by_cases hm : get_valid_moves b (if maximizing then player else opponent player) = []
    · simp [minimax, hm]
    · have ht : timeUp k = true := by
        rcases h with h | h | h
        · exact absurd h (Nat.succ_ne_zero d)
        · exact absurd h hm
        · exact h
      simp [minimax, hm, ht]

/-- C3: whenever the depth is zero, or the side to move has no legal
moves, or the deadline has elapsed at the call's entry check, the
recursive search returns the evaluation of the board from the root
side's (`player`'s) perspective together with no move. -/
theorem minimax_leaf (evalF : Board → Player → Int) (timeUp : Clock)
    (depth : Nat) (b : Board) (alpha beta : XInt) (maximizing : Bool)
    (player : Player) (k : Nat)
    (h : depth = 0
      ∨ get_valid_moves b (if maximizing then player else opponent player) = []
      ∨ timeUp k = true) :
    (minimax evalF timeUp depth b alpha beta maximizing player k).1
      = (XInt.fin (evalF b player), none) :=
  minimax_base evalF timeUp depth b alpha beta maximizing player k h

/-- C3 witness: at depth 0 on the start board the search returns the
piece-count evaluation for Black and no move. -/
theorem minimax_leaf_witness :
    (minimax evaluate_piece_count noLimit 0 initialize_board XInt.negInf
        XInt.posInf true Player.B 0).1
      = (XInt.fin (evaluate_piece_count initialize_board Player.B), none) :=
  minimax_leaf evaluate_piece_count noLimit 0 initialize_board XInt.negInf
    XInt.posInf true Player.B 0 (Or.inl rfl)

/-! ### Basic facts about the extended score order -/

lemma XInt.negInf_lt_fin (z : Int) : XInt.negInf < XInt.fin z := rfl

lemma XInt.fin_lt_posInf (z : Int) : XInt.fin z < XInt.posInf := rfl

lemma XInt.negInf_le (x : XInt) : XInt.negInf ≤ x := by
  cases x <;> rfl

lemma XInt.le_posInf (x : XInt) : x ≤ XInt.posInf := by
  cases x <;> rfl

lemma XInt.negInf_lt_posInf : XInt.negInf < XInt.posInf := rfl

lemma XInt.posInf_le_iff {x : XInt} : XInt.posInf ≤ x ↔ x = XInt.posInf := by
  cases x <;> simp [LE.le, XInt.ble]

lemma XInt.lt_posInf_of_ne {x : XInt} (h : x ≠ XInt.posInf) : x < XInt.posInf := by
  cases x with
  | negInf => exact XInt.negInf_lt_posInf
  | fin z => exact XInt.fin_lt_posInf z
  | posInf => exact absurd rfl h

lemma XInt.negInf_lt_of_ne {x : XInt} (h : x ≠ XInt.negInf) : XInt.negInf < x := by
  cases x with
  | negInf => exact absurd rfl h
  | fin z => exact XInt.negInf_lt_fin z
  | posInf => exact XInt.negInf_lt_posInf

/-! ### C4: scores are finite and a move survives a mid-search timeout -/

lemma maxLoop_fin (child : Board → XInt → Nat → (XInt × Option Move) × Nat)
    (b : Board) (pl : Player) (beta : XInt) (timeUp : Clock)
    (hch : ∀ nb a k, ∃ z, ((child nb a k).1).1 = XInt.fin z) :
    ∀ (moves : List Move) (alpha : XInt) (k : Nat) (m : XInt) (bst : Option Move),
      ((moves ≠ [] ∧ m = XInt.negInf) ∨ ∃ z, m = XInt.fin z) →
      ∃ z, ((maxLoop child b pl beta timeUp moves alpha k m bst).1).1 = XInt.fin z := by
  intro moves
  induction moves with
  | nil =>
    intro alpha k m bst hm
    rcases hm with ⟨hne, _⟩ | ⟨z, rfl⟩
    · exact absurd rfl hne
    · exact ⟨z, rfl⟩
  | cons mv rest ih =>
    intro alpha k m bst hm
    obtain ⟨z0, hz0⟩ := hch (apply_move b mv.1 mv.2 pl) alpha k
    have hm' : ∃ z, (if m < ((child (apply_move b mv.1 mv.2 pl) alpha k).1).1
        then ((child (apply_move b mv.1 mv.2 pl) alpha k).1).1 else m) = XInt.fin z := by
      rcases hm with ⟨_, rfl⟩ | ⟨z, rfl⟩
      · rw [if_pos (by rw [hz0]; exact XInt.negInf_lt_fin z0), hz0]
        exact ⟨z0, rfl⟩
      · by_cases hlt : XInt.fin z < ((child (apply_move b mv.1 mv.2 pl) alpha k).1).1
        · rw [if_pos hlt, hz0]; exact ⟨z0, rfl⟩
        · rw [if_neg hlt]; exact ⟨z, rfl⟩
    rw [maxLoop]
    by_cases hp : beta ≤ max alpha ((child (apply_move b mv.1 mv.2 pl) alpha k).1).1
    · rw [if_pos hp]
      exact hm'
    · rw [if_neg hp]
      by_cases htu : timeUp ((child (apply_move b mv.1 mv.2 pl) alpha k).2) = true
      · rw [if_pos htu]
        exact hm'
      · rw [if_neg htu]
        exact ih _ _ _ _ (Or.inr hm')

lemma minLoop_fin (child : Board → XInt → Nat → (XInt × Option Move) × Nat)
    (b : Board) (mover : Player) (alpha : XInt) (timeUp : Clock)
    (hch : ∀ nb bt k, ∃ z, ((child nb bt k).1).1 = XInt.fin z) :
    ∀ (moves : List Move) (beta : XInt) (k : Nat) (m : XInt) (bst : Option Move),
      ((moves ≠ [] ∧ m = XInt.posInf) ∨ ∃ z, m = XInt.fin z) →
      ∃ z, ((minLoop child b mover alpha timeUp moves beta k m bst).1).1 = XInt.fin z := by
  intro moves
  induction moves with
  | nil =>
    intro beta k m bst hm
    rcases hm with ⟨hne, _⟩ | ⟨z, rfl⟩
    · exact absurd rfl hne
    · exact ⟨z, rfl⟩
  | cons mv rest ih =>
    intro beta k m bst hm
    obtain ⟨z0, hz0⟩ := hch (apply_move b mv.1 mv.2 mover) beta k
    have hm' : ∃ z, (if ((child (apply_move b mv.1 mv.2 mover) beta k).1).1 < m
        then ((child (apply_move b mv.1 mv.2 mover) beta k).1).1 else m) = XInt.fin z := by
      rcases hm with ⟨_, rfl⟩ | ⟨z, rfl⟩
      · rw [if_pos (by rw [hz0]; exact XInt.fin_lt_posInf z0), hz0]
        exact ⟨z0, rfl⟩
      · by_cases hlt : ((child (apply_move b mv.1 mv.2 mover) beta k).1).1 < XInt.fin z
        · rw [if_pos hlt, hz0]; exact ⟨z0, rfl⟩
        · rw [if_neg hlt]; exact ⟨z, rfl⟩
    rw [minLoop]
    by_cases hp : min beta ((child (apply_move b mv.1 mv.2 mover) beta k).1).1 ≤ alpha
    · rw [if_pos hp]
      exact hm'
    · rw [if_neg hp]
      by_cases htu : timeUp ((child (apply_move b mv.1 mv.2 mover) beta k).2) = true
      · rw [if_pos htu]
        exact hm'
      · rw [if_neg htu]
        exact ih _ _ _ _ (Or.inr hm')

/-- Every value the recursive search returns is a finite integer (the
infinities only seed the accumulators). -/
lemma minimax_fin (evalF : Board → Player → Int) (timeUp : Clock) :
    ∀ (depth : Nat) (b : Board) (alpha beta : XInt) (maximizing : Bool)
      (player : Player) (k : Nat),
      ∃ z, ((minimax evalF timeUp depth b alpha beta maximizing player k).1).1
        = XInt.fin z := by
  intro depth
  induction depth with
  | zero => intro b alpha beta maximizing player k; exact ⟨evalF b player, rfl⟩
  | succ d ih =>
    intro b alpha beta maximizing player k
    by_cases hm : get_valid_moves b (if maximizing then player else opponent player) = []
    · rw [minimax_base _ _ _ _ _ _ _ _ _ (Or.inr (Or.inl hm))]
      exact ⟨evalF b player, rfl⟩
    · by_cases ht : timeUp k = true
      · rw [minimax_base _ _ _ _ _ _ _ _ _ (Or.inr (Or.inr ht))]
        exact ⟨evalF b player, rfl⟩
      · cases maximizing with
        | true =>
          have hstep : minimax evalF timeUp (d + 1) b alpha beta true player k
              = maxLoop (fun nb a k' => minimax evalF timeUp d nb a beta false player k')
                  b player beta timeUp (get_valid_moves b player) alpha (k + 1)
                  XInt.negInf none := by
            rw [minimax]
            simp only [if_true]
            rw [if_neg (by simpa using hm), if_neg ht]
          rw [hstep]
          exact maxLoop_fin _ _ _ _ _ (fun nb a k' => ih nb a beta false player k')
            _ _ _ _ _ (Or.inl ⟨by simpa using hm, rfl⟩)
        | false =>
          have hstep : minimax evalF timeUp (d + 1) b alpha beta false player k
              = minLoop (fun nb bt k' => minimax evalF timeUp d nb alpha bt true player k')
                  b (opponent player) alpha timeUp
                  (get_valid_moves b (opponent player)) beta (k + 1)
                  XInt.posInf none := by
            rw [minimax]
            simp only [Bool.false_eq_true, if_false]
            rw [if_neg (by simpa using hm), if_neg ht]
          rw [hstep]
          exact minLoop_fin _ _ _ _ _ (fun nb bt k' => ih nb alpha bt true player k')
            _ _ _ _ _ (Or.inl ⟨by simpa using hm, rfl⟩)

lemma maxLoop_best_some (child : Board → XInt → Nat → (XInt × Option Move) × Nat)
    (b : Board) (pl : Player) (beta : XInt) (timeUp : Clock) :
    ∀ (moves : List Move) (alpha : XInt) (k : Nat) (m : XInt) (bst : Option Move),
      bst ≠ none →
      ((maxLoop child b pl beta timeUp moves alpha k m bst).1).2 ≠ none := by
  intro moves
  induction moves with
  | nil => intro alpha k m bst hb; exact hb
  | cons mv rest ih =>
    intro alpha k m bst hb
    have hb' : (if m < ((child (apply_move b mv.1 mv.2 pl) alpha k).1).1
        then some mv else bst) ≠ none := by
      by_cases hlt : m < ((child (apply_move b mv.1 mv.2 pl) alpha k).1).1
      · rw [if_pos hlt]; exact Option.some_ne_none mv
      · rw [if_neg hlt]; exact hb
    rw [maxLoop]
    by_cases hp : beta ≤ max alpha ((child (apply_move b mv.1 mv.2 pl) alpha k).1).1
    · rw [if_pos hp]; exact hb'
    · rw [if_neg hp]
      by_cases htu : timeUp ((child (apply_move b mv.1 mv.2 pl) alpha k).2) = true
      · rw [if_pos htu]; exact hb'
      · rw [if_neg htu]
        exact ih _ _ _ _ hb'

/-- C4: if the root side has at least one legal move and the deadline has
not yet expired at the root's entry check, the top-level search returns a
move (never `none`), whatever the clock does afterwards. -/
theorem computer_move_some (evalF : Board → Player → Int) (timeUp : Clock)
    (b : Board) (player : Player)
    (hmoves : get_valid_moves b player ≠ []) (ht : timeUp 0 = false) :
    computer_move evalF timeUp b player ≠ none := by
  obtain ⟨mv, rest, hmv⟩ := List.exists_cons_of_ne_nil hmoves
  unfold computer_move
  have h10 : (10 : Nat) = 9 + 1 := rfl
  rw [h10]
  have hstep : minimax evalF timeUp (9 + 1) b XInt.negInf XInt.posInf true player 0
      = maxLoop (fun nb a k' => minimax evalF timeUp 9 nb a XInt.posInf false player k')
          b player XInt.posInf timeUp (get_valid_moves b player) XInt.negInf (0 + 1)
          XInt.negInf none := by
    rw [minimax]
    simp only [if_true]
    rw [if_neg (by simpa using hmoves), if_neg (by simp [ht])]
  rw [hstep, hmv]
  -- first iteration necessarily records `some mv`
  obtain ⟨z0, hz0⟩ := minimax_fin evalF timeUp 9 (apply_move b mv.1 mv.2 player)
    XInt.negInf XInt.posInf false player (0 + 1)
  rw [maxLoop]
  have hlt : XInt.negInf
      < ((minimax evalF timeUp 9 (apply_move b mv.1 mv.2 player) XInt.negInf
          XInt.posInf false player (0 + 1)).1).1 := by
    rw [hz0]; exact XInt.negInf_lt_fin z0
  simp only [if_pos hlt]
  by_cases hp : XInt.posInf ≤ max XInt.negInf
      ((minimax evalF timeUp 9 (apply_move b mv.1 mv.2 player) XInt.negInf
        XInt.posInf false player (0 + 1)).1).1
  · rw [if_pos hp]; exact Option.some_ne_none mv
  · rw [if_neg hp]
    by_cases htu : timeUp ((minimax evalF timeUp 9 (apply_move b mv.1 mv.2 player)
        XInt.negInf XInt.posInf false player (0 + 1)).2) = true
    · rw [if_pos htu]; exact Option.some_ne_none mv
    · rw [if_neg htu]
      exact maxLoop_best_some _ _ _ _ _ _ _ _ _ _ (Option.some_ne_none mv)

/-- C4 witness: on the start board, under a clock that expires right after
the root's entry check, the search still returns a move for Black. -/
theorem computer_move_some_witness :
    computer_move evaluate_piece_count (fun n => decide (1 ≤ n))
        initialize_board Player.B ≠ none :=
  computer_move_some evaluate_piece_count (fun n => decide (1 ≤ n))
    initialize_board Player.B (by decide) (by decide)

/-! ### C7: the search never mutates pre-existing boards -/

lemma hget_append_lt (h : Heap) (b : Board) (i : Nat) (hi : i < h.length) :
    hget (h ++ [b]) i = hget h i :=
  List.getD_append h [b] [] i hi

lemma hget_hset_ne (h : Heap) (r i : Nat) (b : Board) (hne : r ≠ i) :
    hget (hset h r b) i = hget h i :=
  getD_set_ne h r i b [] hne

/-- Frame property of one clone-apply step of the heap loops: the heap
grows by the fresh copy and all pre-existing references are untouched. -/
lemma clone_step_frame (h : Heap) (r : Nat) (mv : Move) (pl : Player) :
    (hset (h ++ [hget h r]) h.length
        (apply_move (hget (h ++ [hget h r]) h.length) mv.1 mv.2 pl)).length
      = h.length + 1
    ∧ ∀ i < h.length,
        hget (hset (h ++ [hget h r]) h.length
          (apply_move (hget (h ++ [hget h r]) h.length) mv.1 mv.2 pl)) i = hget h i := by
  constructor
  · unfold hset
    rw [List.length_set, List.length_append]
    rfl
  · intro i hi
    rw [hget_hset_ne _ _ _ _ (by omega), hget_append_lt _ _ _ hi]

lemma maxLoopH_frame (child : Heap → Nat → XInt → Nat → ((XInt × Option Move) × Nat) × Heap)
    (pl : Player) (beta : XInt) (timeUp : Clock) (r : Nat)
    (hch : ∀ (h' : Heap) (r' : Nat) (a : XInt) (k' : Nat),
      h'.length ≤ ((child h' r' a k').2).length
      ∧ ∀ i < h'.length, hget ((child h' r' a k').2) i = hget h' i) :
    ∀ (moves : List Move) (h : Heap) (alpha : XInt) (k : Nat) (m : XInt)
      (bst : Option Move),
      h.length ≤ ((maxLoopH child pl beta timeUp r moves h alpha k m bst).2).length
      ∧ ∀ i < h.length,
          hget ((maxLoopH child pl beta timeUp r moves h alpha k m bst).2) i
            = hget h i := by
  intro moves
  induction moves with
  | nil => intro h alpha k m bst; exact ⟨le_refl _, fun i _ => rfl⟩
  | cons mv rest ih =>
    intro h alpha k m bst
    rw [maxLoopH]
    obtain ⟨hlen2, hframe2⟩ := clone_step_frame h r mv pl
    obtain ⟨hlen3, hframe3⟩ := hch (hset (h ++ [hget h r]) h.length
      (apply_move (hget (h ++ [hget h r]) h.length) mv.1 mv.2 pl)) h.length alpha k
    generalize hres : child (hset (h ++ [hget h r]) h.length
      (apply_move (hget (h ++ [hget h r]) h.length) mv.1 mv.2 pl)) h.length alpha k = res
    rw [hres] at hlen3 hframe3
    have hlen : h.length ≤ (res.2).length := by omega
    have hframe : ∀ i < h.length, hget res.2 i = hget h i := by
      intro i hi
      rw [hframe3 i (by omega), hframe2 i hi]
    by_cases hp : beta ≤ max alpha res.1.1.1
    · rw [if_pos hp]; exact ⟨hlen, hframe⟩
    · rw [if_neg hp]
      by_cases htu : timeUp res.1.2 = true
      · rw [if_pos htu]; exact ⟨hlen, hframe⟩
      · rw [if_neg htu]
        obtain ⟨hlen4, hframe4⟩ := ih res.2 (max alpha res.1.1.1) (res.1.2 + 1)
          (if m < res.1.1.1 then res.1.1.1 else m)
          (if m < res.1.1.1 then some mv else bst)
        refine ⟨by omega, ?_⟩
        intro i hi
        rw [hframe4 i (by omega), hframe i hi]

lemma minLoopH_frame (child : Heap → Nat → XInt → Nat → ((XInt × Option Move) × Nat) × Heap)
    (mover : Player) (alpha : XInt) (timeUp : Clock) (r : Nat)
    (hch : ∀ (h' : Heap) (r' : Nat) (bt : XInt) (k' : Nat),
      h'.length ≤ ((child h' r' bt k').2).length
      ∧ ∀ i < h'.length, hget ((child h' r' bt k').2) i = hget h' i) :
    ∀ (moves : List Move) (h : Heap) (beta : XInt) (k : Nat) (m : XInt)
      (bst : Option Move),
      h.length ≤ ((minLoopH child mover alpha timeUp r moves h beta k m bst).2).length
      ∧ ∀ i < h.length,
          hget ((minLoopH child mover alpha timeUp r moves h beta k m bst).2) i
            = hget h i := by
  intro moves
  induction moves with
  | nil => intro h beta k m bst; exact ⟨le_refl _, fun i _ => rfl⟩
  | cons mv rest ih =>
    intro h beta k m bst
    rw [minLoopH]
    obtain ⟨hlen2, hframe2⟩ := clone_step_frame h r mv mover
    obtain ⟨hlen3, hframe3⟩ := hch (hset (h ++ [hget h r]) h.length
      (apply_move (hget (h ++ [hget h r]) h.length) mv.1 mv.2 mover)) h.length beta k
    generalize hres : child (hset (h ++ [hget h r]) h.length
      (apply_move (hget (h ++ [hget h r]) h.length) mv.1 mv.2 mover)) h.length beta k = res
    rw [hres] at hlen3 hframe3
    have hlen : h.length ≤ (res.2).length := by omega
    have hframe : ∀ i < h.length, hget res.2 i = hget h i := by
      intro i hi
      rw [hframe3 i (by omega), hframe2 i hi]
    by_cases hp : min beta res.1.1.1 ≤ alpha
    · rw [if_pos hp]; exact ⟨hlen, hframe⟩
    · rw [if_neg hp]
      by_cases htu : timeUp res.1.2 = true
      · rw [if_pos htu]; exact ⟨hlen, hframe⟩
      · rw [if_neg htu]
        obtain ⟨hlen4, hframe4⟩ := ih res.2 (min beta res.1.1.1) (res.1.2 + 1)
          (if res.1.1.1 < m then res.1.1.1 else m)
          (if res.1.1.1 < m then some mv else bst)
        refine ⟨by omega, ?_⟩
        intro i hi
        rw [hframe4 i (by omega), hframe i hi]

/-- The recursive search extends the heap and leaves every pre-existing
board object untouched. -/
lemma minimaxH_preserves (evalF : Board → Player → Int) (timeUp : Clock) :
    ∀ (depth : Nat) (h : Heap) (r : Nat) (alpha beta : XInt) (maximizing : Bool)
      (player : Player) (k : Nat),
      h.length ≤ ((minimaxH evalF timeUp depth h r alpha beta maximizing player k).2).length
      ∧ ∀ i < h.length,
          hget ((minimaxH evalF timeUp depth h r alpha beta maximizing player k).2) i
            = hget h i := by
  intro depth
  induction depth with
  | zero =>
    intro h r alpha beta maximizing player k
    exact ⟨le_refl _, fun i _ => rfl⟩
  | succ d ih =>
    intro h r alpha beta maximizing player k
    by_cases hm : get_valid_moves (hget h r)
        (if maximizing then player else opponent player) = []
    · have : minimaxH evalF timeUp (d + 1) h r alpha beta maximizing player k
          = (((XInt.fin (evalF (hget h r) player), none), k), h) := by
        rw [minimaxH]
        rw [if_pos hm]
      rw [this]
      exact ⟨le_refl _, fun i _ => rfl⟩
    · by_cases ht : timeUp k = true
      · have : minimaxH evalF timeUp (d + 1) h r alpha beta maximizing player k
            = (((XInt.fin (evalF (hget h r) player), none), k + 1), h) := by
          rw [minimaxH]
          rw [if_neg hm, if_pos ht]
        rw [this]
        exact ⟨le_refl _, fun i _ => rfl⟩
      · cases maximizing with
        | true =>
          have hstep : minimaxH evalF timeUp (d + 1) h r alpha beta true player k
              = maxLoopH (fun h' r' a k' =>
                  minimaxH evalF timeUp d h' r' a beta false player k')
                  player beta timeUp r (get_valid_moves (hget h r) player) h alpha
                  (k + 1) XInt.negInf none := by
            rw [minimaxH]
            simp only [if_true]
            rw [if_neg (by simpa using hm), if_neg ht]
          rw [hstep]
          exact maxLoopH_frame _ _ _ _ _
            (fun h' r' a k' => ih h' r' a beta false player k') _ _ _ _ _ _
        | false =>
          have hstep : minimaxH evalF timeUp (d + 1) h r alpha beta false player k
              = minLoopH (fun h' r' bt k' =>
                  minimaxH evalF timeUp d h' r' alpha bt true player k')
                  (opponent player) alpha timeUp r
                  (get_valid_moves (hget h r) (opponent player)) h beta
                  (k + 1) XInt.posInf none := by
            rw [minimaxH]
            simp only [Bool.false_eq_true, if_false]
            rw [if_neg (by simpa using hm), if_neg ht]
          rw [hstep]
          exact minLoopH_frame _ _ _ _ _
            (fun h' r' bt k' => ih h' r' alpha bt true player k') _ _ _ _ _ _

/-- C7: in the heap model of the search (mutable boards, one fresh deep
copy per explored move), a search call of any depth, window, clock and
evaluator leaves every pre-existing board reference — in particular the
caller's board — exactly as it was, so sibling branches never see each
other's speculative writes. -/
theorem minimax_no_mutation (evalF : Board → Player → Int) (timeUp : Clock)
    (depth : Nat) (h : Heap) (r : Nat) (alpha beta : XInt) (maximizing : Bool)
    (player : Player) (k : Nat) (i : Nat) (hi : i < h.length) :
    hget ((minimaxH evalF timeUp depth h r alpha beta maximizing player k).2) i
      = hget h i :=
  (minimaxH_preserves evalF timeUp depth h r alpha beta maximizing player k).2 i hi

/-- C7 witness: a depth-2 search from the start board (the only object on
the heap) leaves that board unchanged. -/
theorem minimax_no_mutation_witness :
    hget ((minimaxH evaluate_piece_count noLimit 2 [initialize_board] 0
        XInt.negInf XInt.posInf true Player.B 0).2) 0
      = hget [initialize_board] 0 :=
  minimax_no_mutation evaluate_piece_count noLimit 2 [initialize_board] 0
    XInt.negInf XInt.posInf true Player.B 0 0 (by decide)

/-! ### C1: alpha-beta pruning refines the full minimax -/

lemma XInt.fin_ne_posInf (z : Int) : XInt.fin z ≠ XInt.posInf := by
  simp

lemma XInt.fin_ne_negInf (z : Int) : XInt.fin z ≠ XInt.negInf := by
  simp

lemma if_lt_eq_max {α : Type} [LinearOrder α] (a b : α) :
    (if a < b then b else a) = max a b := by
  rcases lt_or_le a b with h | h
  · rw [if_pos h, max_eq_right h.le]
  · rw [if_neg (not_lt.mpr h), max_eq_left h]

lemma if_lt_eq_min {α : Type} [LinearOrder α] (a b : α) :
    (if b < a then b else a) = min a b := by
  rcases lt_or_le b a with h | h
  · rw [if_pos h, min_eq_right h.le]
  · rw [if_neg (not_lt.mpr h), min_eq_left h]

lemma fmaxLoop_fst (child : Board → XInt) (b : Board) (pl : Player) :
    ∀ (moves : List Move) (m : XInt) (bst : Option Move),
      (fmaxLoop child b pl moves m bst).1 = max m (maxVal child b pl moves) := by
  intro moves
  induction moves with
  | nil =>
    intro m bst
    rw [fmaxLoop, maxVal, max_eq_left (XInt.negInf_le m)]
  | cons mv rest ih =>
    intro m bst
    rw [fmaxLoop, maxVal]
    by_cases h : m < child (apply_move b mv.1 mv.2 pl)
    · rw [if_pos h, ih, max_eq_right (le_trans (le_of_lt h) (le_max_left _ _))]
    · rw [if_neg h, ih, ← max_assoc, max_eq_left (not_lt.mp h)]

lemma fminLoop_fst (child : Board → XInt) (b : Board) (mover : Player) :
    ∀ (moves : List Move) (m : XInt) (bst : Option Move),
      (fminLoop child b mover moves m bst).1 = min m (minVal child b mover moves) := by
  intro moves
  induction moves with
  | nil =>
    intro m bst
    rw [fminLoop, minVal, min_eq_left (XInt.le_posInf m)]
  | cons mv rest ih =>
    intro m bst
    rw [fminLoop, minVal]
    by_cases h : child (apply_move b mv.1 mv.2 mover) < m
    · rw [if_pos h, ih, min_eq_right (le_trans (min_le_left _ _) (le_of_lt h))]
    · rw [if_neg h, ih, ← min_assoc, min_eq_left (not_lt.mp h)]

/-- Fail-soft bounds of the pruned maximizing loop (Knuth–Moore style),
with the unlimited clock: writing `R` for the returned score and `w` for
`max maxEval (maxVal V ...)` (the exact value folded from the current
accumulator), a result at or below the entry `alpha` is an upper bound on
`w`, a result at or above `beta` is a lower bound on `w`, and a result
strictly inside the window equals `w`. -/
lemma maxLoop_failsoft (child : Board → XInt → Nat → (XInt × Option Move) × Nat)
    (V : Board → XInt) (b : Board) (pl : Player) (beta : XInt)
    (hch : ∀ (nb : Board) (a : XInt) (k' : Nat), a < beta →
      (((child nb a k').1).1 ≤ a → V nb ≤ ((child nb a k').1).1)
      ∧ (beta ≤ ((child nb a k').1).1 → ((child nb a k').1).1 ≤ V nb)
      ∧ (a < ((child nb a k').1).1 → ((child nb a k').1).1 < beta →
          ((child nb a k').1).1 = V nb)) :
    ∀ (moves : List Move) (alpha : XInt) (k : Nat) (m : XInt) (bst : Option Move),
      m ≤ alpha → alpha < beta →
      (((maxLoop child b pl beta noLimit moves alpha k m bst).1).1 ≤ alpha →
        max m (maxVal V b pl moves)
          ≤ ((maxLoop child b pl beta noLimit moves alpha k m bst).1).1)
      ∧ (beta ≤ ((maxLoop child b pl beta noLimit moves alpha k m bst).1).1 →
        ((maxLoop child b pl beta noLimit moves alpha k m bst).1).1
          ≤ max m (maxVal V b pl moves))
      ∧ (alpha < ((maxLoop child b pl beta noLimit moves alpha k m bst).1).1 →
        ((maxLoop child b pl beta noLimit moves alpha k m bst).1).1 < beta →
        ((maxLoop child b pl beta noLimit moves alpha k m bst).1).1
          = max m (maxVal V b pl moves)) := by
  intro moves
  induction moves with
  | nil =>
    intro alpha k m bst hm hab
    rw [maxLoop, maxVal]
    have hw : max m XInt.negInf = m := max_eq_left (XInt.negInf_le m)
    exact ⟨fun _ => le_of_eq hw, fun _ => le_of_eq hw.symm, fun _ _ => hw.symm⟩
  | cons mv rest ih =>
    intro alpha k m bst hm hab
    obtain ⟨hc1, hc2, hc3⟩ := hch (apply_move b mv.1 mv.2 pl) alpha k hab
    rw [maxLoop, maxVal]
    generalize hres : child (apply_move b mv.1 mv.2 pl) alpha k = res
    rw [hres] at hc1 hc2 hc3
    by_cases hp : beta ≤ max alpha res.1.1
    · rw [if_pos hp]
      dsimp only
      simp only [if_lt_eq_max]
      have hbr : beta ≤ res.1.1 := by
        rcases le_max_iff.mp hp with h | h
        · exact absurd h (not_le.mpr hab)
        · exact h
      have hrv : res.1.1 ≤ V (apply_move b mv.1 mv.2 pl) := hc2 hbr
      refine ⟨?_, ?_, ?_⟩
      · intro hle
        exfalso
        exact not_le.mpr hab
          (hbr.trans ((le_max_right m res.1.1).trans hle))
      · intro _
        calc max m res.1.1
            ≤ max m (V (apply_move b mv.1 mv.2 pl)) := max_le_max (le_refl m) hrv
          _ ≤ max m (max (V (apply_move b mv.1 mv.2 pl))
              (maxVal V b pl rest)) := max_le_max (le_refl m) (le_max_left _ _)
      · intro _ h2
        exfalso
        exact not_le.mpr h2 (hbr.trans (le_max_right m res.1.1))
    · rw [if_neg hp]
      rw [if_neg (show ¬(noLimit res.2 = true) from Bool.false_ne_true)]
      simp only [if_lt_eq_max]
      have hab' : max alpha res.1.1 < beta := not_le.mp hp
      have hm' : max m res.1.1 ≤ max alpha res.1.1 := max_le_max hm (le_refl _)
      obtain ⟨i1, i2, i3⟩ := ih (max alpha res.1.1) (res.2 + 1) (max m res.1.1)
        (if m < res.1.1 then some mv else bst) hm' hab'
      by_cases hra : res.1.1 ≤ alpha
      · -- fail-low child: its report bounds its exact value from above
        have hvr : V (apply_move b mv.1 mv.2 pl) ≤ res.1.1 := hc1 hra
        have hα : max alpha res.1.1 = alpha := max_eq_left hra
        rw [hα]
        rw [hα] at i1 i2 i3
        refine ⟨?_, ?_, ?_⟩
        · intro hRa
          refine le_trans ?_ (i1 hRa)
          rw [← max_assoc]
          exact max_le_max (max_le_max (le_refl m) hvr) (le_refl _)
        · intro hbR
          rcases le_max_iff.mp (i2 hbR) with h | h
          · rcases le_max_iff.mp h with h' | h'
            · exact absurd ((hbR.trans h').trans hm) (not_le.mpr hab)
            · exact absurd ((hbR.trans h').trans hra) (not_le.mpr hab)
          · exact h.trans ((le_max_right _ _).trans (le_max_right _ _))
        · intro h1 h2
          have hR := i3 h1 h2
          have hmR : m < ((maxLoop child b pl beta noLimit rest alpha (res.2 + 1)
              (max m res.1.1) (if m < res.1.1 then some mv else bst)).1).1 :=
            lt_of_le_of_lt hm h1
          have hrR : res.1.1 < ((maxLoop child b pl beta noLimit rest alpha (res.2 + 1)
              (max m res.1.1) (if m < res.1.1 then some mv else bst)).1).1 :=
            lt_of_le_of_lt hra h1
          rcases max_choice (max m res.1.1) (maxVal V b pl rest) with hc | hc
          · rcases max_choice m res.1.1 with hc' | hc'
            · exact absurd ((hR.trans hc).trans hc') (ne_of_gt hmR)
            · exact absurd ((hR.trans hc).trans hc') (ne_of_gt hrR)
          · have hRL := hR.trans hc
            have hvL : V (apply_move b mv.1 mv.2 pl) ≤ maxVal V b pl rest := by
              rw [← hRL]
              exact hvr.trans hrR.le
            have hmL : m ≤ maxVal V b pl rest := by
              rw [← hRL]
              exact hmR.le
            rw [max_eq_right hvL, max_eq_right hmL]
            exact hRL
      · -- in-window child: its report is exact
        have har : alpha < res.1.1 := not_le.mp hra
        have hrb : res.1.1 < beta := lt_of_le_of_lt (le_max_right alpha _) hab'
        have hrv : res.1.1 = V (apply_move b mv.1 mv.2 pl) := hc3 har hrb
        have hα : max alpha res.1.1 = res.1.1 := max_eq_right har.le
        have hw : max (max m res.1.1) (maxVal V b pl rest)
            = max m (max (V (apply_move b mv.1 mv.2 pl)) (maxVal V b pl rest)) := by
          rw [max_assoc, hrv]
        rw [hα]
        rw [hα] at i1 i2 i3
        rw [hw] at i1 i2 i3
        refine ⟨?_, ?_, ?_⟩
        · intro hRa
          exact i1 (hRa.trans har.le)
        · intro hbR
          exact i2 hbR
        · intro h1 h2
          rcases lt_or_le res.1.1
              (((maxLoop child b pl beta noLimit rest res.1.1 (res.2 + 1)
                (max m res.1.1) (if m < res.1.1 then some mv else bst)).1).1)
              with hc | hc
          · exact i3 hc h2
          · refine le_antisymm ?_ (i1 hc)
            calc ((maxLoop child b pl beta noLimit rest res.1.1 (res.2 + 1)
                  (max m res.1.1) (if m < res.1.1 then some mv else bst)).1).1
                ≤ res.1.1 := hc
              _ = V (apply_move b mv.1 mv.2 pl) := hrv
              _ ≤ max (V (apply_move b mv.1 mv.2 pl)) (maxVal V b pl rest) :=
                  le_max_left _ _
              _ ≤ max m (max (V (apply_move b mv.1 mv.2 pl)) (maxVal V b pl rest)) :=
                  le_max_right _ _

/-- Fail-soft bounds of the pruned minimizing loop, dual to
`maxLoop_failsoft`. -/
lemma minLoop_failsoft (child : Board → XInt → Nat → (XInt × Option Move) × Nat)
    (V : Board → XInt) (b : Board) (mover : Player) (alpha : XInt)
    (hch : ∀ (nb : Board) (bt : XInt) (k' : Nat), alpha < bt →
      (((child nb bt k').1).1 ≤ alpha → V nb ≤ ((child nb bt k').1).1)
      ∧ (bt ≤ ((child nb bt k').1).1 → ((child nb bt k').1).1 ≤ V nb)
      ∧ (alpha < ((child nb bt k').1).1 → ((child nb bt k').1).1 < bt →
          ((child nb bt k').1).1 = V nb)) :
    ∀ (moves : List Move) (beta : XInt) (k : Nat) (m : XInt) (bst : Option Move),
      beta ≤ m → alpha < beta →
      (((minLoop child b mover alpha noLimit moves beta k m bst).1).1 ≤ alpha →
        min m (minVal V b mover moves)
          ≤ ((minLoop child b mover alpha noLimit moves beta k m bst).1).1)
      ∧ (beta ≤ ((minLoop child b mover alpha noLimit moves beta k m bst).1).1 →
        ((minLoop child b mover alpha noLimit moves beta k m bst).1).1
          ≤ min m (minVal V b mover moves))
      ∧ (alpha < ((minLoop child b mover alpha noLimit moves beta k m bst).1).1 →
        ((minLoop child b mover alpha noLimit moves beta k m bst).1).1 < beta →
        ((minLoop child b mover alpha noLimit moves beta k m bst).1).1
          = min m (minVal V b mover moves)) := by
  intro moves
  induction moves with
  | nil =>
    intro beta k m bst hm hab
    rw [minLoop, minVal]
    have hw : min m XInt.posInf = m := min_eq_left (XInt.le_posInf m)
    exact ⟨fun _ => le_of_eq hw, fun _ => le_of_eq hw.symm, fun _ _ => hw.symm⟩
  | cons mv rest ih =>
    intro beta k m bst hm hab
    obtain ⟨hc1, hc2, hc3⟩ := hch (apply_move b mv.1 mv.2 mover) beta k hab
    rw [minLoop, minVal]
    generalize hres : child (apply_move b mv.1 mv.2 mover) beta k = res
    rw [hres] at hc1 hc2 hc3
    by_cases hp : min beta res.1.1 ≤ alpha
    · rw [if_pos hp]
      dsimp only
      simp only [if_lt_eq_min]
      have hra : res.1.1 ≤ alpha := by
        rcases min_le_iff.mp hp with h | h
        · exact absurd h (not_le.mpr hab)
        · exact h
      have hvr : V (apply_move b mv.1 mv.2 mover) ≤ res.1.1 := hc1 hra
      refine ⟨?_, ?_, ?_⟩
      · intro _
        refine le_min (min_le_left m _) ?_
        exact (min_le_right m _).trans ((min_le_left _ _).trans hvr)
      · intro hbR
        exact absurd ((hbR.trans (min_le_right m _)).trans hra) (not_le.mpr hab)
      · intro h1 _
        exact absurd ((min_le_right m res.1.1).trans hra) (not_le.mpr h1)
    · rw [if_neg hp]
      rw [if_neg (show ¬(noLimit res.2 = true) from Bool.false_ne_true)]
      simp only [if_lt_eq_min]
      have hab' : alpha < min beta res.1.1 := not_le.mp hp
      have hm' : min beta res.1.1 ≤ min m res.1.1 := min_le_min hm (le_refl _)
      obtain ⟨i1, i2, i3⟩ := ih (min beta res.1.1) (res.2 + 1) (min m res.1.1)
        (if res.1.1 < m then some mv else bst) hm' hab'
      by_cases hbr : beta ≤ res.1.1
      · -- fail-high child: its report bounds its exact value from below
        have hrv : res.1.1 ≤ V (apply_move b mv.1 mv.2 mover) := hc2 hbr
        have hβ : min beta res.1.1 = beta := min_eq_left hbr
        rw [hβ]
        rw [hβ] at i1 i2 i3
        refine ⟨?_, ?_, ?_⟩
        · intro hRa
          rcases min_le_iff.mp (i1 hRa) with h | h
          · rcases min_le_iff.mp h with h' | h'
            · exact absurd ((hm.trans h').trans hRa) (not_le.mpr hab)
            · exact absurd ((hbr.trans h').trans hRa) (not_le.mpr hab)
          · exact ((min_le_right m _).trans (min_le_right _ _)).trans h
        · intro hbR
          refine (i2 hbR).trans ?_
          refine le_min ((min_le_left _ _).trans (min_le_left m _)) ?_
          refine le_min ?_ (min_le_right _ _)
          exact ((min_le_left _ _).trans (min_le_right m _)).trans hrv
        · intro h1 h2
          have hR := i3 h1 h2
          have hmR : ((minLoop child b mover alpha noLimit rest beta (res.2 + 1)
              (min m res.1.1) (if res.1.1 < m then some mv else bst)).1).1 < m :=
            lt_of_lt_of_le h2 hm
          have hrR : ((minLoop child b mover alpha noLimit rest beta (res.2 + 1)
              (min m res.1.1) (if res.1.1 < m then some mv else bst)).1).1 < res.1.1 :=
            lt_of_lt_of_le h2 hbr
          rcases min_choice (min m res.1.1) (minVal V b mover rest) with hc | hc
          · rcases min_choice m res.1.1 with hc' | hc'
            · exact absurd ((hR.trans hc).trans hc') (ne_of_lt hmR)
            · exact absurd ((hR.trans hc).trans hc') (ne_of_lt hrR)
          · have hRG := hR.trans hc
            have hGv : minVal V b mover rest ≤ V (apply_move b mv.1 mv.2 mover) := by
              rw [← hRG]
              exact hrR.le.trans hrv
            have hGm : minVal V b mover rest ≤ m := by
              rw [← hRG]
              exact hmR.le
            rw [min_eq_right hGv, min_eq_right hGm]
            exact hRG
      · -- in-window child: its report is exact
        have hrb : res.1.1 < beta := not_le.mp hbr
        have har : alpha < res.1.1 := lt_of_lt_of_le hab' (min_le_right beta _)
        have hrv : res.1.1 = V (apply_move b mv.1 mv.2 mover) := hc3 har hrb
        have hβ : min beta res.1.1 = res.1.1 := min_eq_right hrb.le
        have hw : min (min m res.1.1) (minVal V b mover rest)
            = min m (min (V (apply_move b mv.1 mv.2 mover)) (minVal V b mover rest)) := by
          rw [min_assoc, hrv]
        rw [hβ]
        rw [hβ] at i1 i2 i3
        rw [hw] at i1 i2 i3
        refine ⟨?_, ?_, ?_⟩
        · intro hRa
          exact i1 hRa
        · intro hbR
          exact i2 (hrb.le.trans hbR)
        · intro h1 h2
          rcases lt_or_le
              (((minLoop child b mover alpha noLimit rest res.1.1 (res.2 + 1)
                (min m res.1.1) (if res.1.1 < m then some mv else bst)).1).1)
              res.1.1 with hc | hc
          · exact i3 h1 hc
          · refine le_antisymm (i2 hc) ?_
            calc min m (min (V (apply_move b mv.1 mv.2 mover)) (minVal V b mover rest))
                ≤ min (V (apply_move b mv.1 mv.2 mover)) (minVal V b mover rest) :=
                  min_le_right _ _
              _ ≤ V (apply_move b mv.1 mv.2 mover) := min_le_left _ _
              _ = res.1.1 := hrv.symm
              _ ≤ ((minLoop child b mover alpha noLimit rest res.1.1 (res.2 + 1)
                  (min m res.1.1) (if res.1.1 < m then some mv else bst)).1).1 := hc

/-- Unfolding of `minimax` at a maximizing node with moves and time left. -/
lemma minimax_succ_true (evalF : Board → Player → Int) (timeUp : Clock)
    (d : Nat) (b : Board) (alpha beta : XInt) (player : Player) (k : Nat)
    (hm : get_valid_moves b player ≠ []) (ht : ¬(timeUp k = true)) :
    minimax evalF timeUp (d + 1) b alpha beta true player k
      = maxLoop (fun nb a k' => minimax evalF timeUp d nb a beta false player k')
          b player beta timeUp (get_valid_moves b player) alpha (k + 1)
          XInt.negInf none := by
  rw [minimax]
  simp only [if_true]
  rw [if_neg hm, if_neg ht]

/-- Unfolding of `minimax` at a minimizing node with moves and time left. -/
lemma minimax_succ_false (evalF : Board → Player → Int) (timeUp : Clock)
    (d : Nat) (b : Board) (alpha beta : XInt) (player : Player) (k : Nat)
    (hm : get_valid_moves b (opponent player) ≠ []) (ht : ¬(timeUp k = true)) :
    minimax evalF timeUp (d + 1) b alpha beta false player k
      = minLoop (fun nb bt k' => minimax evalF timeUp d nb alpha bt true player k')
          b (opponent player) alpha timeUp (get_valid_moves b (opponent player))
          beta (k + 1) XInt.posInf none := by
  rw [minimax]
  simp only [Bool.false_eq_true, if_false]
  rw [if_neg hm, if_neg ht]

/-- Leaf behaviour of the spec-modelled full minimax. -/
lemma fullMinimax_leaf (evalF : Board → Player → Int) (depth : Nat) (b : Board)
    (maximizing : Bool) (player : Player)
    (h : depth = 0
      ∨ get_valid_moves b (if maximizing then player else opponent player) = []) :
    fullMinimax evalF depth b maximizing player
      = (XInt.fin (evalF b player), none) := by
  cases depth with
  | zero => rfl
  | succ d =>
    rcases h with h | h
    · exact absurd h (Nat.succ_ne_zero d)
    · simp [fullMinimax, h]

/-- Unfolding of `fullMinimax` at a maximizing node with moves. -/
lemma fullMinimax_succ_true (evalF : Board → Player → Int) (d : Nat) (b : Board)
    (player : Player) (hm : get_valid_moves b player ≠ []) :
    fullMinimax evalF (d + 1) b true player
      = fmaxLoop (fun nb => (fullMinimax evalF d nb false player).1) b player
          (get_valid_moves b player) XInt.negInf none := by
  rw [fullMinimax]
  simp only [if_true]
  rw [if_neg hm]

/-- Unfolding of `fullMinimax` at a minimizing node with moves. -/
lemma fullMinimax_succ_false (evalF : Board → Player → Int) (d : Nat) (b : Board)
    (player : Player) (hm : get_valid_moves b (opponent player) ≠ []) :
    fullMinimax evalF (d + 1) b false player
      = fminLoop (fun nb => (fullMinimax evalF d nb true player).1) b
          (opponent player) (get_valid_moves b (opponent player))
          XInt.posInf none := by
  rw [fullMinimax]
  simp only [Bool.false_eq_true, if_false]
  rw [if_neg hm]

/-- Fail-soft bounds of the whole pruned search against the exact full
minimax value, for any window with `alpha < beta` and unlimited time. -/
lemma minimax_failsoft (evalF : Board → Player → Int) :
    ∀ (depth : Nat) (b : Board) (alpha beta : XInt) (maximizing : Bool)
      (player : Player) (k : Nat), alpha < beta →
      (((minimax evalF noLimit depth b alpha beta maximizing player k).1).1 ≤ alpha →
        (fullMinimax evalF depth b maximizing player).1
          ≤ ((minimax evalF noLimit depth b alpha beta maximizing player k).1).1)
      ∧ (beta ≤ ((minimax evalF noLimit depth b alpha beta maximizing player k).1).1 →
        ((minimax evalF noLimit depth b alpha beta maximizing player k).1).1
          ≤ (fullMinimax evalF depth b maximizing player).1)
      ∧ (alpha < ((minimax evalF noLimit depth b alpha beta maximizing player k).1).1 →
        ((minimax evalF noLimit depth b alpha beta maximizing player k).1).1 < beta →
        ((minimax evalF noLimit depth b alpha beta maximizing player k).1).1
          = (fullMinimax evalF depth b maximizing player).1) := by
  intro depth
  induction depth with
  | zero =>
    intro b alpha beta maximizing player k _
    exact ⟨fun _ => le_of_eq rfl, fun _ => le_of_eq rfl, fun _ _ => rfl⟩
  | succ d ih =>
    intro b alpha beta maximizing player k hab
    by_cases hm : get_valid_moves b (if maximizing then player else opponent player) = []
    · rw [minimax_base _ _ _ _ _ _ _ _ _ (Or.inr (Or.inl hm)),
        fullMinimax_leaf _ _ _ _ _ (Or.inr hm)]
      exact ⟨fun _ => le_of_eq rfl, fun _ => le_of_eq rfl, fun _ _ => rfl⟩
    · cases maximizing with
      | true =>
        have hm' : get_valid_moves b player ≠ [] := by simpa using hm
        rw [minimax_succ_true evalF noLimit d b alpha beta player k hm'
            Bool.false_ne_true,
          fullMinimax_succ_true evalF d b player hm',
          fmaxLoop_fst]
        exact maxLoop_failsoft _
          (fun nb => (fullMinimax evalF d nb false player).1) b player beta
          (fun nb a k' ha => ih nb a beta false player k' ha)
          (get_valid_moves b player) alpha (k + 1) XInt.negInf none
          (XInt.negInf_le alpha) hab
      | false =>
        have hm' : get_valid_moves b (opponent player) ≠ [] := by simpa using hm
        rw [minimax_succ_false evalF noLimit d b alpha beta player k hm'
            Bool.false_ne_true,
          fullMinimax_succ_false evalF d b player hm',
          fminLoop_fst]
        exact minLoop_failsoft _
          (fun nb => (fullMinimax evalF d nb true player).1) b (opponent player)
          alpha
          (fun nb bt k' hb => ih nb alpha bt true player k' hb)
          (get_valid_moves b (opponent player)) beta (k + 1) XInt.posInf none
          (XInt.le_posInf beta) hab

lemma XInt.le_negInf_iff {x : XInt} : x ≤ XInt.negInf ↔ x = XInt.negInf := by
  cases x <;> simp [LE.le, XInt.ble]

/-- At a maximizing node whose window is `(alpha, +inf)` with
`alpha = maxEval`, the pruned loop performs no pruning and computes
exactly the full loop's (score, move) pair. -/
lemma maxLoop_exact (child : Board → XInt → Nat → (XInt × Option Move) × Nat)
    (V : Board → XInt) (b : Board) (pl : Player)
    (hfin : ∀ (nb : Board) (a : XInt) (k' : Nat),
      ∃ z, ((child nb a k').1).1 = XInt.fin z)
    (hch : ∀ (nb : Board) (a : XInt) (k' : Nat), a ≠ XInt.posInf →
      (((child nb a k').1).1 ≤ a → V nb ≤ ((child nb a k').1).1)
      ∧ (a < ((child nb a k').1).1 → ((child nb a k').1).1 = V nb)) :
    ∀ (moves : List Move) (alpha : XInt) (k : Nat) (m : XInt) (bst : Option Move),
      alpha = m → m ≠ XInt.posInf →
      (maxLoop child b pl XInt.posInf noLimit moves alpha k m bst).1
        = fmaxLoop V b pl moves m bst := by
  intro moves
  induction moves with
  | nil => intro alpha k m bst _ _; rfl
  | cons mv rest ih =>
    intro alpha k m bst hα hmne
    subst hα
    obtain ⟨z0, hz0⟩ := hfin (apply_move b mv.1 mv.2 pl) alpha k
    obtain ⟨hc1, hc2⟩ := hch (apply_move b mv.1 mv.2 pl) alpha k hmne
    rw [maxLoop, fmaxLoop]
    generalize hres : child (apply_move b mv.1 mv.2 pl) alpha k = res
    rw [hres] at hz0 hc1 hc2
    have hprune : ¬(XInt.posInf ≤ max alpha res.1.1) := by
      rw [XInt.posInf_le_iff]
      rcases max_choice alpha res.1.1 with hc | hc <;> rw [hc]
      · exact hmne
      · rw [hz0]; exact XInt.fin_ne_posInf z0
    rw [if_neg hprune,
      if_neg (show ¬(noLimit res.2 = true) from Bool.false_ne_true)]
    by_cases hlt : alpha < res.1.1
    · have hv : res.1.1 = V (apply_move b mv.1 mv.2 pl) := hc2 hlt
      rw [← hv]
      simp only [if_pos hlt]
      rw [max_eq_right hlt.le]
      exact ih res.1.1 (res.2 + 1) res.1.1 (some mv) rfl
        (by rw [hz0]; exact XInt.fin_ne_posInf z0)
    · have hle : res.1.1 ≤ alpha := not_lt.mp hlt
      have hvle : V (apply_move b mv.1 mv.2 pl) ≤ res.1.1 := hc1 hle
      have hnv : ¬(alpha < V (apply_move b mv.1 mv.2 pl)) :=
        not_lt.mpr (hvle.trans hle)
      simp only [if_neg hlt, if_neg hnv]
      rw [max_eq_left hle]
      exact ih alpha (res.2 + 1) alpha bst rfl hmne

/-- At a minimizing node whose window is `(-inf, beta)` with
`beta = minEval`, the pruned loop performs no pruning and computes
exactly the full loop's (score, move) pair. -/
lemma minLoop_exact (child : Board → XInt → Nat → (XInt × Option Move) × Nat)
    (V : Board → XInt) (b : Board) (mover : Player)
    (hfin : ∀ (nb : Board) (bt : XInt) (k' : Nat),
      ∃ z, ((child nb bt k').1).1 = XInt.fin z)
    (hch : ∀ (nb : Board) (bt : XInt) (k' : Nat), bt ≠ XInt.negInf →
      (bt ≤ ((child nb bt k').1).1 → ((child nb bt k').1).1 ≤ V nb)
      ∧ (((child nb bt k').1).1 < bt → ((child nb bt k').1).1 = V nb)) :
    ∀ (moves : List Move) (beta : XInt) (k : Nat) (m : XInt) (bst : Option Move),
      beta = m → m ≠ XInt.negInf →
      (minLoop child b mover XInt.negInf noLimit moves beta k m bst).1
        = fminLoop V b mover moves m bst := by
  intro moves
  induction moves with
  | nil => intro beta k m bst _ _; rfl
  | cons mv rest ih =>
    intro beta k m bst hβ hmne
    subst hβ
    obtain ⟨z0, hz0⟩ := hfin (apply_move b mv.1 mv.2 mover) beta k
    obtain ⟨hc1, hc2⟩ := hch (apply_move b mv.1 mv.2 mover) beta k hmne
    rw [minLoop, fminLoop]
    generalize hres : child (apply_move b mv.1 mv.2 mover) beta k = res
    rw [hres] at hz0 hc1 hc2
    have hprune : ¬(min beta res.1.1 ≤ XInt.negInf) := by
      rw [XInt.le_negInf_iff]
      rcases min_choice beta res.1.1 with hc | hc <;> rw [hc]
      · exact hmne
      · rw [hz0]; exact XInt.fin_ne_negInf z0
    rw [if_neg hprune,
      if_neg (show ¬(noLimit res.2 = true) from Bool.false_ne_true)]
    by_cases hlt : res.1.1 < beta
    · have hv : res.1.1 = V (apply_move b mv.1 mv.2 mover) := hc2 hlt
      rw [← hv]
      simp only [if_pos hlt]
      rw [min_eq_right hlt.le]
      exact ih res.1.1 (res.2 + 1) res.1.1 (some mv) rfl
        (by rw [hz0]; exact XInt.fin_ne_negInf z0)
    · have hle : beta ≤ res.1.1 := not_lt.mp hlt
      have hvge : res.1.1 ≤ V (apply_move b mv.1 mv.2 mover) := hc1 hle
      have hnv : ¬(V (apply_move b mv.1 mv.2 mover) < beta) :=
        not_lt.mpr (hle.trans hvge)
      simp only [if_neg hlt, if_neg hnv]
      rw [min_eq_left hle]
      exact ih beta (res.2 + 1) beta bst rfl hmne

/-- C1: with an unlimited time budget and the full initial window
`(-inf, +inf)`, the alpha-beta-pruned `minimax` returns exactly the
(score, move) pair of the unpruned full minimax over the same game tree —
same row-major child order, same first-strictly-greater tie-break — for
every evaluator, board, side, depth, maximizing flag and entry tick. -/
theorem alphabeta_eq_fullMinimax (evalF : Board → Player → Int) (depth : Nat)
    (b : Board) (maximizing : Bool) (player : Player) (k : Nat) :
    (minimax evalF noLimit depth b XInt.negInf XInt.posInf maximizing player k).1
      = fullMinimax evalF depth b maximizing player := by
  cases depth with
  | zero => rfl
  | succ d =>
    by_cases hm : get_valid_moves b (if maximizing then player else opponent player) = []
    · rw [minimax_base _ _ _ _ _ _ _ _ _ (Or.inr (Or.inl hm)),
        fullMinimax_leaf _ _ _ _ _ (Or.inr hm)]
    · cases maximizing with
      | true =>
        have hm' : get_valid_moves b player ≠ [] := by simpa using hm
        rw [minimax_succ_true evalF noLimit d b XInt.negInf XInt.posInf player k
            hm' Bool.false_ne_true,
          fullMinimax_succ_true evalF d b player hm']
        refine maxLoop_exact _ _ b player
          (fun nb a k' => minimax_fin evalF noLimit d nb a XInt.posInf false player k')
          ?_ (get_valid_moves b player) XInt.negInf (k + 1) XInt.negInf none rfl
          (by simp)
        intro nb a k' hane
        obtain ⟨t1, _, t3⟩ := minimax_failsoft evalF d nb a XInt.posInf false
          player k' (XInt.lt_posInf_of_ne hane)
        refine ⟨t1, fun hlt => t3 hlt ?_⟩
        obtain ⟨z, hz⟩ := minimax_fin evalF noLimit d nb a XInt.posInf false player k'
        rw [hz]
        exact XInt.fin_lt_posInf z
      | false =>
        have hm' : get_valid_moves b (opponent player) ≠ [] := by simpa using hm
        rw [minimax_succ_false evalF noLimit d b XInt.negInf XInt.posInf player k
            hm' Bool.false_ne_true,
          fullMinimax_succ_false evalF d b player hm']
        refine minLoop_exact _ _ b (opponent player)
          (fun nb bt k' => minimax_fin evalF noLimit d nb XInt.negInf bt true player k')
          ?_ (get_valid_moves b (opponent player)) XInt.posInf (k + 1) XInt.posInf
          none rfl (by simp)
        intro nb bt k' hbne
        obtain ⟨_, t2, t3⟩ := minimax_failsoft evalF d nb XInt.negInf bt true
          player k' (XInt.negInf_lt_of_ne hbne)
        refine ⟨t2, fun hlt => t3 ?_ hlt⟩
        obtain ⟨z, hz⟩ := minimax_fin evalF noLimit d nb XInt.negInf bt true player k'
        rw [hz]
        exact XInt.negInf_lt_fin z
